import Mathlib

/-!
Verification development for the TF-IDF recommender artifact builder
(`train_tfidf_recommender.py`).  The Python script is embedded shallowly:
strings are Lean `String`s (lists of characters), Python floats are modelled
by the real numbers, dictionaries by association lists or option-valued
lookup functions, and the fallible `main` by an `Except`-valued function.
-/

namespace Tfidf

/-- Model of Python `str.lower()` restricted to its ASCII behaviour:
lowercase every character. -/
def strLower (s : String) : String :=
  String.mk (s.data.map Char.toLower)

/-- Model of Python `str.strip()`: remove leading and trailing whitespace. -/
def strStrip (s : String) : String :=
  String.mk (((s.data.dropWhile Char.isWhitespace).reverse.dropWhile
    Char.isWhitespace).reverse)

/-- Model of Python `" ".join(...)`: interleave single spaces. -/
def joinSpace : List String → String
  | [] => ""
  | [p] => p
  | p :: ps => p ++ " " ++ joinSpace ps

/-- `normalize` from the source: the empty string maps to itself, any other
text is lowercased (`text.lower()`). -/
def normalize (text : String) : String :=
  if text = "" then "" else strLower text

/-- A character matched by the regular expression class `[a-z]`. -/
def isLowerAlpha (c : Char) : Bool :=
  decide ('a' ≤ c) && decide (c ≤ 'z')

/-- Scanner implementing `re.findall(r"[a-z]+", ·)`: `acc` holds the
characters of the run currently being read, in reverse. -/
def tokenizeGo : List Char → List Char → List String
  | [], acc => if acc.isEmpty then [] else [String.mk acc.reverse]
  | c :: cs, acc =>
    if isLowerAlpha c then tokenizeGo cs (c :: acc)
    else if acc.isEmpty then tokenizeGo cs []
    else String.mk acc.reverse :: tokenizeGo cs []

/-- `tokenize` from the source: `TOKEN_RE.findall(text.lower())` with
`TOKEN_RE = re.compile(r"[a-z]+")`. -/
def tokenize (text : String) : List String :=
  tokenizeGo (strLower text).data []

/-- The input rows of the `drugs` table: each column is a nullable string. -/
structure Drug where
  name : Option String
  description : Option String
  side_effects : Option String
  therapeutic_class : Option String
  action_class : Option String
  chemical_class : Option String
  substitutes : Option String
  habit_forming : Option String

/-- `build_corpus_row` from the source: concatenate the non-empty columns
with spaces (`d.<col> or ""` maps a null column to `""`), return the
stripped name together with the normalized joined text. -/
def build_corpus_row (d : Drug) : String × String :=
  let parts : List String :=
    [d.name.getD "", d.description.getD "", d.side_effects.getD "",
     d.therapeutic_class.getD "", d.action_class.getD "",
     d.chemical_class.getD "", d.substitutes.getD "", d.habit_forming.getD ""]
  let joined := joinSpace (parts.filter (fun p => p ≠ ""))
  (strStrip (d.name.getD ""), normalize joined)

/-- Stripped name of a record, first component of `build_corpus_row`. -/
def rowName (d : Drug) : String := (build_corpus_row d).1

/-- Composed text of a record, second component of `build_corpus_row`. -/
def rowText (d : Drug) : String := (build_corpus_row d).2

/-- Dedup key from the source: `name.lower().strip()` of the stripped name. -/
def rowKey (d : Drug) : String := strStrip (strLower (rowName d))

/-- The corpus-building loop of `main` (step 1): walk the records keeping a
`seen` set of dedup keys; skip a record whose name is empty, whose key was
seen, or whose text strips to empty; the key is recorded in `seen` before
the empty-text check, exactly as in the source. Returns `(names, corpus)`. -/
def buildCorpus : List Drug → List String → List String × List String
  | [], _ => ([], [])
  | d :: ds, seen =>
    if rowName d = "" then buildCorpus ds seen
    else if rowKey d ∈ seen then buildCorpus ds seen
    else if strStrip (rowText d) = "" then buildCorpus ds (rowKey d :: seen)
    else
      let rest := buildCorpus ds (rowKey d :: seen)
      (rowName d :: rest.1, rowText d :: rest.2)

/-- First-occurrence-ordered list of the distinct elements of `l`; models the
key order of a Python `Counter` built from `l`. -/
def firstOccs : List String → List String
  | [] => []
  | t :: ts => t :: (firstOccs ts).filter (fun u => u ≠ t)

/-- Model of `Counter(toks).items()`: each distinct token paired with its
raw count, in first-occurrence order. -/
def counterItems (toks : List String) : List (String × Nat) :=
  (firstOccs toks).map (fun t => (t, toks.count t))

/-- Document frequency (step 2 of `main`): how many documents contain the
term at least once (`df.update(set(toks))` counts each document once). -/
def docFreq (docs : List (List String)) (t : String) : Nat :=
  docs.countP (fun d => d.contains t)

/-- Lookup in the IDF dictionary of step 3 of `main`: a term is a key
exactly when its document frequency is positive, and its value is
`1.0 + math.log((N + 1) / (c + 1))`. -/
noncomputable def idfTable (docs : List (List String)) (t : String) :
    Option ℝ :=
  if docFreq docs t = 0 then none
  else some (1 + Real.log (((docs.length : ℝ) + 1) / ((docFreq docs t : ℝ) + 1)))

/-- Raw per-document weights (step 4 of `main`, before normalization):
for each `(term, f)` of `Counter(toks)`, skip terms missing from the IDF
table, otherwise weight `(1 + math.log(1 + f)) * idf[term]`. -/
noncomputable def docWeights (docs : List (List String)) (toks : List String) :
    List (String × ℝ) :=
  (counterItems toks).filterMap (fun p =>
    match idfTable docs p.1 with
    | none => none
    | some v => some (p.1, (1 + Real.log (1 + (p.2 : ℝ))) * v))

/-- L2 normalization from step 4 of `main`:
`norm = math.sqrt(sum(v * v for v in weights.values())) or 1.0`, then every
weight is divided by `norm`. -/
noncomputable def normalizeWeights (ws : List (String × ℝ)) :
    List (String × ℝ) :=
  let norm := Real.sqrt ((ws.map (fun p => p.2 * p.2)).sum)
  let norm := if norm = 0 then 1 else norm
  ws.map (fun p => (p.1, p.2 / norm))

/-- The two fatal errors raised by `main`: `noRows` models
`RuntimeError("No rows found in drugs table…")`, `emptyCorpus` models
`RuntimeError("All drug entries were empty after cleaning…")` (the spec's
`EmptyCorpusError`). -/
inductive TrainError where
  | noRows : TrainError
  | emptyCorpus : TrainError
deriving DecidableEq

/-- Metadata record written to `model_meta.json`. -/
structure ModelMeta where
  built_at : String
  num_docs : Nat
  num_terms : Nat

/-- The artifacts produced by a successful run: the IDF vocabulary (as the
lookup function of the pickled dict), the ordered document vectors
(`name` with its normalized weights), and the metadata. -/
structure TfidfModel where
  vocab : String → Option ℝ
  docs : List (String × List (String × ℝ))
  meta : ModelMeta

/-- The pure core of `main`: `now` stands for `datetime.utcnow().isoformat()`
so that `built_at = now ++ "Z"`.  Raising is modelled by `Except.error`;
artifacts exist only in the `Except.ok` result. -/
noncomputable def runPipeline (drugs : List Drug) (now : String) :
    Except TrainError TfidfModel :=
  if drugs.isEmpty then .error .noRows
  else
    let nc := buildCorpus drugs []
    if nc.2.length = 0 then .error .emptyCorpus
    else
      let tokenizedDocs := nc.2.map tokenize
      .ok
        { vocab := idfTable tokenizedDocs
          docs := (tokenizedDocs.zip nc.1).map
            (fun p => (p.2, normalizeWeights (docWeights tokenizedDocs p.1)))
          meta :=
            { built_at := now ++ "Z"
              num_docs := nc.2.length
              num_terms := (firstOccs tokenizedDocs.flatten).length } }

/-- Specification-side tokenizer, following the spec's words: lowercase the
text, split it at every character that is not a lowercase ASCII letter, and
keep the non-empty chunks — i.e. the maximal runs matching `[a-z]+`. -/
def tokensSpec (s : String) : List String :=
  ((((strLower s).data).splitOnP (fun c => !isLowerAlpha c)).filter
    (fun r => !r.isEmpty)).map (fun r => String.mk r)

/-- Specification-side keep condition for a record, phrased over the list of
records processed strictly earlier: the name is non-empty, no earlier record
with a non-empty name shares its dedup key, and its text is not whitespace. -/
def keepSpec (prev : List Drug) (d : Drug) : Prop :=
  rowName d ≠ "" ∧ (∀ p ∈ prev, rowName p ≠ "" → rowKey p ≠ rowKey d) ∧
    strStrip (rowText d) ≠ ""

instance (prev : List Drug) (d : Drug) : Decidable (keepSpec prev d) := by
  unfold keepSpec
  infer_instance

/-- Specification-side corpus: input-ordered `(name, text)` pairs of the
records satisfying `keepSpec` relative to the records before them. -/
def corpusSpec : List Drug → List Drug → List (String × String)
  | [], _ => []
  | d :: ds, prev =>
    if keepSpec prev d then (rowName d, rowText d) :: corpusSpec ds (prev ++ [d])
    else corpusSpec ds (prev ++ [d])

/-- Helper record constructor: a drug with only a name and a description. -/
def mkRec (nm ds : Option String) : Drug :=
  ⟨nm, ds, none, none, none, none, none, none⟩

/-- A record with every field null. -/
def nullRec : Drug :=
  ⟨none, none, none, none, none, none, none, none⟩

/-- The three-record end-to-end example input of the spec. -/
def demoRecs : List Drug :=
  [mkRec (some "A") (some "fever pain"), mkRec (some "B") (some "fever cough"),
   mkRec (some "C") (some "cough pain")]

/-- The tokenized documents the pipeline derives from `demoRecs`: the name
token is part of each composed text. -/
def demoDocs : List (List String) :=
  [["a", "fever", "pain"], ["b", "fever", "cough"], ["c", "cough", "pain"]]

/-- Erase the only timestamp-dependent field of the metadata. -/
def eraseTime : TfidfModel → TfidfModel
  | m => { m with meta := { m.meta with built_at := "" } }

theorem mem_firstOccs {a : String} : ∀ {l : List String}, a ∈ firstOccs l ↔ a ∈ l
  | [] => Iff.rfl
  | t :: ts => by
    by_cases h : a = t
    · subst h
      simp [firstOccs]
    · simp only [firstOccs, List.mem_cons, List.mem_filter]
      constructor
      · rintro (rfl | ⟨hm, _⟩)
        · exact Or.inl rfl
        · exact Or.inr (mem_firstOccs.mp hm)
      · rintro (rfl | hm)
        · exact Or.inl rfl
        · exact Or.inr ⟨mem_firstOccs.mpr hm, by simpa using h⟩

theorem mem_counterItems {t : String} {f : Nat} {toks : List String} :
    (t, f) ∈ counterItems toks ↔ t ∈ toks ∧ f = toks.count t := by
  simp only [counterItems, List.mem_map, Prod.mk.injEq]
  constructor
  · rintro ⟨u, hu, rfl, rfl⟩
    exact ⟨mem_firstOccs.mp hu, rfl⟩
  · rintro ⟨ht, rfl⟩
    exact ⟨t, mem_firstOccs.mpr ht, rfl, rfl⟩

theorem docFreq_pos_iff {docs : List (List String)} {t : String} :
    0 < docFreq docs t ↔ ∃ d ∈ docs, t ∈ d := by
  simp [docFreq, List.countP_pos_iff]

theorem docFreq_le_length (docs : List (List String)) (t : String) :
    docFreq docs t ≤ docs.length :=
  List.countP_le_length _

theorem idfTable_isSome {docs : List (List String)} {t : String} :
    (idfTable docs t).isSome ↔ 0 < docFreq docs t := by
  unfold idfTable
  by_cases h : docFreq docs t = 0 <;> simp [h, Nat.pos_of_ne_zero]

theorem idfTable_eq_some {docs : List (List String)} {t : String} {w : ℝ}
    (h : idfTable docs t = some w) :
    0 < docFreq docs t ∧
      w = 1 + Real.log (((docs.length : ℝ) + 1) / ((docFreq docs t : ℝ) + 1)) := by
  unfold idfTable at h
  by_cases h0 : docFreq docs t = 0
  · simp [h0] at h
  · simp only [h0, if_false] at h
    exact ⟨Nat.pos_of_ne_zero h0, (Option.some_injective _ h).symm⟩

theorem idfTable_of_pos {docs : List (List String)} {t : String}
    (h : 0 < docFreq docs t) :
    idfTable docs t =
      some (1 + Real.log (((docs.length : ℝ) + 1) / ((docFreq docs t : ℝ) + 1))) := by
  unfold idfTable
  simp [Nat.pos_iff_ne_zero.mp h]

theorem one_le_idf {docs : List (List String)} {t : String} {v : ℝ}
    (h : idfTable docs t = some v) : 1 ≤ v := by
  obtain ⟨hpos, rfl⟩ := idfTable_eq_some h
  have hc : (docFreq docs t : ℝ) + 1 ≤ (docs.length : ℝ) + 1 := by
    have := docFreq_le_length docs t
    exact_mod_cast Nat.add_le_add_right this 1
  have hden : (0 : ℝ) < (docFreq docs t : ℝ) + 1 := by positivity
  have hlog : 0 ≤ Real.log (((docs.length : ℝ) + 1) / ((docFreq docs t : ℝ) + 1)) :=
    Real.log_nonneg ((one_le_div hden).mpr hc)
  linarith

theorem mem_docWeights {docs : List (List String)} {toks : List String}
    {t : String} {w : ℝ} :
    (t, w) ∈ docWeights docs toks ↔
      t ∈ toks ∧ ∃ v, idfTable docs t = some v ∧
        w = (1 + Real.log (1 + (toks.count t : ℝ))) * v := by
  simp only [docWeights, List.mem_filterMap]
  constructor
  · rintro ⟨⟨u, f⟩, hu, hmatch⟩
    obtain ⟨hu_mem, rfl⟩ := mem_counterItems.mp hu
    cases hv : idfTable docs u with
    | none => simp [hv] at hmatch
    | some v =>
      simp only [hv, Option.some.injEq, Prod.mk.injEq] at hmatch
      obtain ⟨rfl, rfl⟩ := hmatch
      exact ⟨hu_mem, v, hv, rfl⟩
  · rintro ⟨ht, v, hv, rfl⟩
    exact ⟨(t, toks.count t), mem_counterItems.mpr ⟨ht, rfl⟩, by simp [hv]⟩

theorem docWeights_lower_bound {docs : List (List String)} {toks : List String}
    {t : String} {w : ℝ} (h : (t, w) ∈ docWeights docs toks) :
    1 + Real.log 2 ≤ w := by
  obtain ⟨ht, v, hv, rfl⟩ := mem_docWeights.mp h
  have hf : 1 ≤ toks.count t := List.count_pos_iff.mpr ht
  have hlog2 : Real.log 2 ≤ Real.log (1 + (toks.count t : ℝ)) := by
    apply Real.log_le_log (by norm_num)
    have : (1 : ℝ) ≤ (toks.count t : ℝ) := by exact_mod_cast hf
    linarith
  have hv1 : 1 ≤ v := one_le_idf hv
  have htf : (0 : ℝ) < 1 + Real.log 2 := by
    have := Real.log_pos (by norm_num : (1 : ℝ) < 2)
    linarith
  calc 1 + Real.log 2 = (1 + Real.log 2) * 1 := (mul_one _).symm
    _ ≤ (1 + Real.log (1 + (toks.count t : ℝ))) * v :=
        mul_le_mul (by linarith) hv1 zero_le_one (by linarith)

theorem docWeights_pos {docs : List (List String)} {toks : List String}
    {t : String} {w : ℝ} (h : (t, w) ∈ docWeights docs toks) : 0 < w := by
  have := docWeights_lower_bound h
  have := Real.log_pos (by norm_num : (1 : ℝ) < 2)
  linarith

theorem mem_normalizeWeights {ws : List (String × ℝ)} {t : String} {w : ℝ} :
    (t, w) ∈ normalizeWeights ws ↔
      ∃ u, (t, u) ∈ ws ∧
        w = u / (if Real.sqrt ((ws.map (fun p => p.2 * p.2)).sum) = 0 then 1
          else Real.sqrt ((ws.map (fun p => p.2 * p.2)).sum)) := by
  simp only [normalizeWeights, List.mem_map, Prod.mk.injEq]
  constructor
  · rintro ⟨⟨u, x⟩, hmem, rfl, rfl⟩
    exact ⟨x, hmem, rfl⟩
  · rintro ⟨u, hmem, rfl⟩
    exact ⟨(t, u), hmem, rfl, rfl⟩

theorem normalizeWeights_pos {ws : List (String × ℝ)}
    (hpos : ∀ p ∈ ws, 0 < Prod.snd p) {t : String} {w : ℝ}
    (h : (t, w) ∈ normalizeWeights ws) : 0 < w := by
  obtain ⟨u, hu, rfl⟩ := mem_normalizeWeights.mp h
  have hupos : 0 < u := hpos (t, u) hu
  have hsq : 0 ≤ Real.sqrt ((ws.map (fun p => p.2 * p.2)).sum) := Real.sqrt_nonneg _
  by_cases h0 : Real.sqrt ((ws.map (fun p => p.2 * p.2)).sum) = 0
  · simpa [h0] using hupos
  · rw [if_neg h0]
    exact div_pos hupos (lt_of_le_of_ne hsq (Ne.symm h0))

theorem sumSq_pos {ws : List (String × ℝ)} (hne : ws ≠ [])
    (hpos : ∀ p ∈ ws, 0 < Prod.snd p) :
    0 < (ws.map (fun p => p.2 * p.2)).sum := by
  apply List.sum_pos
  · intro x hx
    obtain ⟨p, hp, rfl⟩ := List.mem_map.mp hx
    exact mul_pos (hpos p hp) (hpos p hp)
  · simpa using hne

theorem normalizeWeights_norm_one {ws : List (String × ℝ)} (hne : ws ≠ [])
    (hpos : ∀ p ∈ ws, 0 < Prod.snd p) :
    Real.sqrt (((normalizeWeights ws).map (fun p => p.2 * p.2)).sum) = 1 := by
  set S := (ws.map (fun p => p.2 * p.2)).sum with hS
  have hSpos : 0 < S := sumSq_pos hne hpos
  have hn0 : Real.sqrt S ≠ 0 := by
    have := Real.sqrt_pos.mpr hSpos
    exact ne_of_gt this
  have hmap : (normalizeWeights ws).map (fun p => p.2 * p.2) =
      ws.map (fun p => (p.2 * p.2) * (Real.sqrt S * Real.sqrt S)⁻¹) := by
    simp only [normalizeWeights, ← hS, if_neg hn0, List.map_map]
    apply List.map_congr_left
    intro p _
    simp only [Function.comp_apply]
    rw [div_mul_div_comm, div_eq_mul_inv]
  rw [hmap, List.sum_map_mul_right, ← hS]
  rw [Real.mul_self_sqrt (le_of_lt hSpos)]
  rw [mul_inv_cancel₀ (ne_of_gt hSpos), Real.sqrt_one]

theorem tokenizeGo_eq_splitOnP :
    ∀ (l acc : List Char), (∀ c ∈ acc, isLowerAlpha c = true) →
    tokenizeGo l acc =
      (((acc.reverse ++ l).splitOnP (fun c => !isLowerAlpha c)).filter
        (fun r => !r.isEmpty)).map (fun r => String.mk r)
  | [], acc, h => by
    have hsingle : (acc.reverse ++ []).splitOnP (fun c => !isLowerAlpha c) =
        [acc.reverse] := by
      rw [List.append_nil]
      apply List.splitOnP_eq_single
      intro x hx
      simp [h x (List.mem_reverse.mp hx)]
    rw [hsingle]
    cases hacc : acc with
    | nil => simp [tokenizeGo]
    | cons a as =>
      simp [tokenizeGo, hacc]
  | c :: cs, acc, h => by
    by_cases hc : isLowerAlpha c = true
    · have ih := tokenizeGo_eq_splitOnP cs (c :: acc)
        (by intro x hx; rcases List.mem_cons.mp hx with rfl | hx
            · exact hc
            · exact h x hx)
      rw [show tokenizeGo (c :: cs) acc = tokenizeGo cs (c :: acc) by
        simp [tokenizeGo, hc]]
      rw [ih]
      congr 2
      simp [List.append_assoc]
    · have hsep : (fun x => !isLowerAlpha x) c = true := by simp [hc]
      have ihnil := tokenizeGo_eq_splitOnP cs []
        (by intro x hx; simp at hx)
      cases hacc : acc with
      | nil =>
        rw [show tokenizeGo (c :: cs) [] = tokenizeGo cs [] by
          simp [tokenizeGo, hc]]
        rw [ihnil]
        simp only [List.reverse_nil, List.nil_append, List.splitOnP_cons, hsep,
          if_true]
        simp
      | cons a as =>
        rw [show tokenizeGo (c :: cs) (a :: as) =
            String.mk (a :: as).reverse :: tokenizeGo cs [] by
          simp [tokenizeGo, hc]]
        have hfirst := List.splitOnP_first (fun x => !isLowerAlpha x)
          ((a :: as).reverse)
          (by intro x hx
              simp [h x (by rw [hacc]; exact List.mem_reverse.mp hx)])
          c hsep cs
        rw [hfirst, ihnil]
        have hne : ((a :: as).reverse).isEmpty = false := by
          simp [List.isEmpty_iff]
        simp [hne]

/-- The source tokenizer agrees with the spec-side maximal-run extraction. -/
theorem tokenize_eq_tokensSpec (s : String) : tokenize s = tokensSpec s := by
  unfold tokenize tokensSpec
  rw [tokenizeGo_eq_splitOnP _ [] (by intro c hc; simp at hc)]
  simp

theorem buildCorpus_eq_corpusSpec :
    ∀ (ds : List Drug) (seen : List String) (prev : List Drug),
      (∀ k, k ∈ seen ↔ ∃ p ∈ prev, rowName p ≠ "" ∧ rowKey p = k) →
      buildCorpus ds seen =
        ((corpusSpec ds prev).map Prod.fst, (corpusSpec ds prev).map Prod.snd)
  | [], seen, prev, hinv => by simp [buildCorpus, corpusSpec]
  | d :: ds, seen, prev, hinv => by
    by_cases hn : rowName d = ""
    · have hkeep : ¬ keepSpec prev d := fun hk => hk.1 hn
      rw [show buildCorpus (d :: ds) seen = buildCorpus ds seen by
        simp [buildCorpus, hn]]
      rw [show corpusSpec (d :: ds) prev = corpusSpec ds (prev ++ [d]) by
        simp [corpusSpec, hkeep]]
      apply buildCorpus_eq_corpusSpec ds seen (prev ++ [d])
      intro k
      rw [hinv k]
      constructor
      · rintro ⟨p, hp, hpn, hpk⟩
        exact ⟨p, List.mem_append_left _ hp, hpn, hpk⟩
      · rintro ⟨p, hp, hpn, hpk⟩
        rcases List.mem_append.mp hp with hp | hp
        · exact ⟨p, hp, hpn, hpk⟩
        · rcases List.mem_singleton.mp hp with rfl
          exact (hpn hn).elim
    · by_cases hseen : rowKey d ∈ seen
      · have hkeep : ¬ keepSpec prev d := by
          rintro ⟨_, hfresh, _⟩
          obtain ⟨p, hp, hpn, hpk⟩ := (hinv (rowKey d)).mp hseen
          exact hfresh p hp hpn hpk
        rw [show buildCorpus (d :: ds) seen = buildCorpus ds seen by
          simp [buildCorpus, hn, hseen]]
        rw [show corpusSpec (d :: ds) prev = corpusSpec ds (prev ++ [d]) by
          simp [corpusSpec, hkeep]]
        apply buildCorpus_eq_corpusSpec ds seen (prev ++ [d])
        intro k
        constructor
        · intro hk
          obtain ⟨p, hp, hpn, hpk⟩ := (hinv k).mp hk
          exact ⟨p, List.mem_append_left _ hp, hpn, hpk⟩
        · rintro ⟨p, hp, hpn, hpk⟩
          rcases List.mem_append.mp hp with hp | hp
          · exact (hinv k).mpr ⟨p, hp, hpn, hpk⟩
          · rcases List.mem_singleton.mp hp with rfl
            rw [← hpk]
            exact hseen
      · have hinv2 : ∀ k, k ∈ (rowKey d :: seen) ↔
            ∃ p ∈ prev ++ [d], rowName p ≠ "" ∧ rowKey p = k := by
          intro k
          simp only [List.mem_cons]
          constructor
          · rintro (rfl | hk)
            · exact ⟨d, List.mem_append_right _ (List.mem_singleton_self d),
                hn, rfl⟩
            · obtain ⟨p, hp, hpn, hpk⟩ := (hinv k).mp hk
              exact ⟨p, List.mem_append_left _ hp, hpn, hpk⟩
          · rintro ⟨p, hp, hpn, hpk⟩
            rcases List.mem_append.mp hp with hp | hp
            · exact Or.inr ((hinv k).mpr ⟨p, hp, hpn, hpk⟩)
            · rcases List.mem_singleton.mp hp with rfl
              exact Or.inl hpk.symm
        by_cases htext : strStrip (rowText d) = ""
        · have hkeep : ¬ keepSpec prev d := by
            rintro ⟨_, _, h3⟩
            exact h3 htext
          rw [show buildCorpus (d :: ds) seen =
              buildCorpus ds (rowKey d :: seen) by
            simp [buildCorpus, hn, hseen, htext]]
          rw [show corpusSpec (d :: ds) prev = corpusSpec ds (prev ++ [d]) by
            simp [corpusSpec, hkeep]]
          exact buildCorpus_eq_corpusSpec ds _ _ hinv2
        · have hkeep : keepSpec prev d := by
            refine ⟨hn, ?_, htext⟩
            intro p hp hpn hpk
            exact hseen ((hinv (rowKey d)).mpr ⟨p, hp, hpn, hpk⟩)
          rw [show corpusSpec (d :: ds) prev =
              (rowName d, rowText d) :: corpusSpec ds (prev ++ [d]) by
            simp [corpusSpec, hkeep]]
          have ih := buildCorpus_eq_corpusSpec ds (rowKey d :: seen)
            (prev ++ [d]) hinv2
          rw [show buildCorpus (d :: ds) seen =
              (rowName d :: (buildCorpus ds (rowKey d :: seen)).1,
               rowText d :: (buildCorpus ds (rowKey d :: seen)).2) by
            simp [buildCorpus, hn, hseen, htext]]
          rw [ih]
          simp

theorem buildCorpus_append_nullRec :
    ∀ (ds : List Drug) (seen : List String),
      buildCorpus (ds ++ [nullRec]) seen = buildCorpus ds seen
  | [], seen => by
    simp [buildCorpus, show rowName nullRec = "" from rfl]
  | d :: ds, seen => by
    by_cases hn : rowName d = ""
    · simp only [List.cons_append, buildCorpus, hn, if_pos]
      exact buildCorpus_append_nullRec ds seen
    · by_cases hseen : rowKey d ∈ seen
      · simp [List.cons_append, buildCorpus, hn, hseen,
          buildCorpus_append_nullRec ds seen]
      · by_cases htext : strStrip (rowText d) = ""
        · simp [List.cons_append, buildCorpus, hn, hseen, htext,
            buildCorpus_append_nullRec ds (rowKey d :: seen)]
        · simp [List.cons_append, buildCorpus, hn, hseen, htext,
            buildCorpus_append_nullRec ds (rowKey d :: seen)]

theorem runPipeline_ok_shape {ds : List Drug} {now : String} {m : TfidfModel}
    (hm : runPipeline ds now = Except.ok m) :
    m.vocab = idfTable ((buildCorpus ds []).2.map tokenize) ∧
    m.docs = (((buildCorpus ds []).2.map tokenize).zip (buildCorpus ds []).1).map
      (fun p =>
        (p.2, normalizeWeights (docWeights ((buildCorpus ds []).2.map tokenize) p.1))) := by
  simp only [runPipeline] at hm
  by_cases h0 : ds.isEmpty
  · rw [if_pos h0] at hm
    exact absurd hm (by simp)
  · rw [if_neg h0] at hm
    by_cases h1 : (buildCorpus ds []).2.length = 0
    · rw [if_pos h1] at hm
      exact absurd hm (by simp)
    · rw [if_neg h1] at hm
      obtain rfl := (Except.ok.inj hm).symm
      exact ⟨rfl, rfl⟩

/-- C1: the IDF table maps exactly the terms occurring in at least one
tokenized document; the document frequency of a term counts the documents
containing it at least once; and every mapped term with document frequency
`c` over `N` documents is mapped to `1 + ln((N + 1) / (c + 1))`. -/
theorem tfidf_C1 (docs : List (List String)) (t : String) :
    ((idfTable docs t).isSome ↔ ∃ d ∈ docs, t ∈ d) ∧
    docFreq docs t = (docs.filter (fun d => d.contains t)).length ∧
    (0 < docFreq docs t →
      idfTable docs t =
        some (1 + Real.log (((docs.length : ℝ) + 1) / ((docFreq docs t : ℝ) + 1)))) := by
  refine ⟨idfTable_isSome.trans docFreq_pos_iff, ?_, idfTable_of_pos⟩
  simp [docFreq, List.countP_eq_length_filter]

theorem tfidf_C1_witness :
    idfTable [["fever", "pain"]] "fever" = some 1 := by
  have h := (tfidf_C1 [["fever", "pain"]] "fever").2.2 (by decide)
  rw [show docFreq [["fever", "pain"]] "fever" = 1 from by decide] at h
  norm_num [Real.log_one] at h
  exact h

/-- C2 counterexample: for the concrete input of N = 4 documents all
containing "aspirin", the code's idf value is exactly 1, whereas the claim's
general formula `1 + ln(1/(N+1))` gives a different number. -/
theorem tfidf_C2_counterexample :
    idfTable [["aspirin"], ["aspirin"], ["aspirin"], ["aspirin"]] "aspirin" =
      some 1 ∧
    (1 : ℝ) ≠ 1 + Real.log (1 / ((4 : ℝ) + 1)) := by
  constructor
  · have h := @idfTable_of_pos [["aspirin"], ["aspirin"], ["aspirin"],
      ["aspirin"]] "aspirin" (by decide)
    rw [show docFreq [["aspirin"], ["aspirin"], ["aspirin"], ["aspirin"]]
      "aspirin" = 4 from by decide] at h
    norm_num [Real.log_one] at h
    exact h
  · intro h
    have hlog : Real.log (1 / ((4 : ℝ) + 1)) = 0 := by linarith
    rw [Real.log_eq_zero] at hlog
    norm_num at hlog

/-- C2 (amended): every value of the IDF table is strictly positive, and a
term appearing in every one of the N ≥ 1 documents gets
`idf = 1 + ln((N+1)/(N+1)) = 1`. -/
theorem tfidf_C2 (docs : List (List String)) (t : String) :
    (∀ v, idfTable docs t = some v → 0 < v) ∧
    (docs ≠ [] → (∀ d ∈ docs, t ∈ d) → idfTable docs t = some 1) := by
  constructor
  · intro v hv
    have := one_le_idf hv
    linarith
  · intro hne hall
    have hfreq : docFreq docs t = docs.length := by
      unfold docFreq
      rw [List.countP_eq_length]
      intro d hd
      simpa using hall d hd
    have hpos : 0 < docFreq docs t := by
      rw [hfreq]
      exact List.length_pos.mpr hne
    rw [idfTable_of_pos hpos, hfreq]
    have hden : ((docs.length : ℝ) + 1) ≠ 0 := by positivity
    rw [div_self hden, Real.log_one]
    norm_num

theorem tfidf_C2_witness :
    idfTable [["aspirin"], ["aspirin"], ["aspirin"], ["aspirin"]] "aspirin" =
      some 1 :=
  (tfidf_C2 [["aspirin"], ["aspirin"], ["aspirin"], ["aspirin"]] "aspirin").2
    (by simp) (by decide)

/-- C3: a pair `(t, w)` is in the raw document weights exactly when `t`
occurs in the document's tokens and is in the Vocabulary with some idf `v`,
with `w = (1 + ln(1 + count)) * v`; a token absent from the Vocabulary
yields no entry (and the weighter is a total function, so no error). -/
theorem tfidf_C3 (docs : List (List String)) (toks : List String) (t : String)
    (w : ℝ) :
    ((t, w) ∈ docWeights docs toks ↔
      t ∈ toks ∧ ∃ v, idfTable docs t = some v ∧
        w = (1 + Real.log (1 + (toks.count t : ℝ))) * v) ∧
    (idfTable docs t = none → ∀ u, (t, u) ∉ docWeights docs toks) := by
  refine ⟨mem_docWeights, ?_⟩
  intro hnone u hmem
  obtain ⟨_, v, hv, _⟩ := mem_docWeights.mp hmem
  rw [hnone] at hv
  exact Option.noConfusion hv

theorem tfidf_C3_witness :
    ("fever", (0 : ℝ)) ∉ docWeights [["cough"]] ["fever"] :=
  (tfidf_C3 [["cough"]] ["fever"] "fever" 0).2
    (by rw [idfTable]
        simp [show docFreq [["cough"]] "fever" = 0 from by decide]) 0

/-- C4: a document with no recognized terms keeps the empty mapping
(no division happens), and every non-empty weight vector has exact L2 norm 1
after normalization — in particular within 1e-9 of 1. -/
theorem tfidf_C4 (docs : List (List String)) (toks : List String) :
    (docWeights docs toks = [] → normalizeWeights (docWeights docs toks) = []) ∧
    (docWeights docs toks ≠ [] →
      Real.sqrt (((normalizeWeights (docWeights docs toks)).map
        (fun p => p.2 * p.2)).sum) = 1 ∧
      |Real.sqrt (((normalizeWeights (docWeights docs toks)).map
        (fun p => p.2 * p.2)).sum) - 1| < 1e-9) := by
  constructor
  · intro h
    rw [h]
    simp [normalizeWeights]
  · intro hne
    have hpos : ∀ p ∈ docWeights docs toks, 0 < Prod.snd p := by
      rintro ⟨u, w⟩ hp
      exact docWeights_pos hp
    have h1 := normalizeWeights_norm_one hne hpos
    refine ⟨h1, ?_⟩
    rw [h1]
    norm_num

theorem tfidf_C4_witness :
    Real.sqrt (((normalizeWeights (docWeights [["x"]] ["x"])).map
      (fun p => p.2 * p.2)).sum) = 1 :=
  ((tfidf_C4 [["x"]] ["x"]).2 (by
    have hidf : (idfTable [["x"]] "x").isSome := idfTable_isSome.mpr (by decide)
    obtain ⟨v, hv⟩ := Option.isSome_iff_exists.mp hidf
    rw [docWeights, show counterItems ["x"] = [("x", 1)] from by decide,
      List.filterMap_cons]
    simp [hv])).1

/-- C6: the tokenizer lowercases its input and returns, in order, the
maximal runs of lowercase ASCII letters (all other characters act as
dropped separators); concretely on "Drug-123 Interacts (severely)!" it
returns ["drug", "interacts", "severely"], and a string with no letters
tokenizes to the empty sequence. -/
theorem tfidf_C6 :
    (∀ s : String, tokenize s = tokensSpec s) ∧
    tokenize "Drug-123 Interacts (severely)!" =
      ["drug", "interacts", "severely"] ∧
    tokenize "42 + 17" = [] :=
  ⟨tokenize_eq_tokensSpec, by decide, by decide⟩

/-- C7: the corpus keeps records in input order, and a record is kept
exactly when its name is non-empty, no earlier record with a non-empty name
shares its lowercase-trimmed name key (first occurrence wins), and its
composed text is not empty/whitespace-only; concretely, of two records
named "Aspirin" and "aspirin " only the first survives. -/
theorem tfidf_C7 :
    (∀ ds : List Drug, buildCorpus ds [] =
      ((corpusSpec ds []).map Prod.fst, (corpusSpec ds []).map Prod.snd)) ∧
    buildCorpus [mkRec (some "Aspirin") (some "pain relief"),
      mkRec (some "aspirin ") (some "generic")] [] =
      (["Aspirin"], ["aspirin pain relief"]) := by
  constructor
  · intro ds
    apply buildCorpus_eq_corpusSpec
    intro k
    simp
  · decide

/-- C8 counterexample: on the empty record list zero documents survive
filtering, yet the run fails with the distinct no-rows error, not with the
empty-corpus error. -/
theorem tfidf_C8_counterexample :
    (buildCorpus ([] : List Drug) []).2 = [] ∧
    runPipeline [] "T" = Except.error TrainError.noRows ∧
    (Except.error TrainError.noRows :
      Except TrainError TfidfModel) ≠ Except.error TrainError.emptyCorpus := by
  refine ⟨rfl, by simp [runPipeline], ?_⟩
  intro h
  simp at h

/-- C8 (amended): the run fails with the empty-corpus error exactly when the
input list is non-empty and zero documents survive filtering (an empty input
fails earlier with the distinct no-rows error); a record with all fields
null composes to an empty row, is merely excluded, and appending it to any
input changes nothing — errors are returned instead of any artifact value. -/
theorem tfidf_C8 (ds : List Drug) (now : String) :
    (runPipeline ds now = Except.error TrainError.emptyCorpus ↔
      ds ≠ [] ∧ (buildCorpus ds []).2 = []) ∧
    build_corpus_row nullRec = ("", "") ∧
    buildCorpus (ds ++ [nullRec]) [] = buildCorpus ds [] ∧
    (ds ≠ [] → runPipeline (ds ++ [nullRec]) now = runPipeline ds now) := by
  refine ⟨?_, rfl, buildCorpus_append_nullRec ds [], ?_⟩
  · cases ds with
    | nil =>
      simp [runPipeline]
    | cons d ds' =>
      simp only [runPipeline, List.isEmpty_cons, Bool.false_eq_true, if_false]
      by_cases h : (buildCorpus (d :: ds') []).2.length = 0
      · rw [if_pos h]
        simp [List.length_eq_zero.mp h]
      · rw [if_neg h]
        constructor
        · intro hcon
          exact absurd hcon (by simp)
        · rintro ⟨-, hnil⟩
          rw [hnil] at h
          simp at h
  · intro hne
    cases ds with
    | nil => exact absurd rfl hne
    | cons d ds' =>
      simp only [runPipeline, List.cons_append, List.isEmpty_cons,
        Bool.false_eq_true, if_false]
      rw [show d :: (ds' ++ [nullRec]) = (d :: ds') ++ [nullRec] from rfl,
        buildCorpus_append_nullRec (d :: ds') []]

theorem tfidf_C8_witness :
    runPipeline [mkRec (some "X") none, nullRec] "T" =
      runPipeline [mkRec (some "X") none] "T" :=
  (tfidf_C8 [mkRec (some "X") none] "T").2.2.2 (by simp)

/-- C9: for a fixed input record list, the produced Vocabulary and Document
Vector artifacts do not depend on the run's timestamp; only the metadata's
built_at field does, and erasing it makes two runs' outputs equal. -/
theorem tfidf_C9 (ds : List Drug) (t1 t2 : String) :
    (runPipeline ds t1).map eraseTime = (runPipeline ds t2).map eraseTime := by
  simp only [runPipeline]
  by_cases h0 : ds.isEmpty
  · rw [if_pos h0, if_pos h0]
  · rw [if_neg h0, if_neg h0]
    by_cases h1 : (buildCorpus ds []).2.length = 0
    · rw [if_pos h1, if_pos h1]
    · rw [if_neg h1, if_neg h1]
      rfl

/-- C10: in every successful run, every Vocabulary weight is at least 1,
every raw document weight is at least `1 + ln 2`, and every weight stored in
every produced Document Vector is strictly positive. -/
theorem tfidf_C10 (ds : List Drug) (now : String) (m : TfidfModel)
    (hm : runPipeline ds now = Except.ok m) :
    (∀ t v, m.vocab t = some v → 1 ≤ v) ∧
    (∀ docs toks t w, (t, w) ∈ docWeights docs toks → 1 + Real.log 2 ≤ w) ∧
    (∀ nm ws, (nm, ws) ∈ m.docs → ∀ t w, (t, w) ∈ ws → 0 < w) := by
  obtain ⟨hv, hd⟩ := runPipeline_ok_shape hm
  refine ⟨?_, ?_, ?_⟩
  · intro t v h
    rw [hv] at h
    exact one_le_idf h
  · intro docs toks t w h
    exact docWeights_lower_bound h
  · intro nm ws hmem t w hw
    rw [hd] at hmem
    obtain ⟨p, hp, hpe⟩ := List.mem_map.mp hmem
    have hws : ws = normalizeWeights
        (docWeights ((buildCorpus ds []).2.map tokenize) p.1) :=
      (congrArg Prod.snd hpe).symm
    rw [hws] at hw
    refine normalizeWeights_pos ?_ hw
    rintro ⟨u, x⟩ hx
    exact docWeights_pos hx

theorem tfidf_C10_witness : (0 : ℝ) < 1 := by
  have hidf : idfTable [["x"]] "x" = some 1 := by
    rw [idfTable_of_pos (by decide),
      show docFreq [["x"]] "x" = 1 from by decide]
    norm_num [Real.log_one]
  have hw2 : (0 : ℝ) < 1 + Real.log 2 := by
    have := Real.log_pos (by norm_num : (1 : ℝ) < 2)
    linarith
  have hdw : docWeights [["x"]] ["x"] = [("x", 1 + Real.log 2)] := by
    rw [docWeights, show counterItems ["x"] = [("x", 1)] from by decide,
      List.filterMap_cons]
    simp only [hidf, List.filterMap_nil]
    norm_num
  have hnw : normalizeWeights [("x", 1 + Real.log 2)] = [("x", (1 : ℝ))] := by
    rw [normalizeWeights]
    simp only [List.map_cons, List.map_nil, List.sum_cons, List.sum_nil]
    rw [add_zero, Real.sqrt_mul_self (le_of_lt hw2),
      if_neg (ne_of_gt hw2)]
    simp [div_self (ne_of_gt hw2)]
  have hrun : runPipeline [mkRec (some "X") none] "T" = Except.ok
      { vocab := idfTable [["x"]], docs := [("X", [("x", (1 : ℝ))])],
        meta := { built_at := "TZ", num_docs := 1, num_terms := 1 } } := by
    simp only [runPipeline,
      show buildCorpus [mkRec (some "X") none] [] = (["X"], ["x"]) from by
        decide]
    norm_num
    rw [show tokenize "x" = ["x"] from by decide]
    exact ⟨rfl, by rw [hdw, hnw], by decide, by decide⟩
  exact (tfidf_C10 [mkRec (some "X") none] "T" _ hrun).2.2 "X" [("x", 1)]
    (by simp) "x" 1 (by simp)

/-- C5 counterexample: on the three-record example the pipeline's tokenized
documents include the lowercased names, so the Vocabulary contains the term
"a", which is none of fever, pain, cough — the claimed "exactly
fever, pain, cough" Vocabulary (and hence the 2-term vectors) is wrong. -/
theorem tfidf_C5_counterexample :
    (buildCorpus demoRecs []).2.map tokenize = demoDocs ∧
    (idfTable demoDocs "a").isSome = true ∧
    "a" ∉ (["fever", "pain", "cough"] : List String) :=
  ⟨by decide, idfTable_isSome.mpr (by decide), by decide⟩

/-- C5 (amended): on the three-record example the corpus keeps all three
records, each composed text starts with the lowercased name, the Vocabulary
is exactly the six terms a, b, c, fever, pain, cough — the name tokens with
document frequency 1 and idf `1 + ln(4/2)`, the words with document
frequency 2 and idf `1 + ln(4/3)` — each Document Vector has exactly three
terms, each with pre-normalization weight `(1 + ln 2) * idf(term)`, and each
normalized vector has unit L2 norm. -/
theorem tfidf_C5 :
    (buildCorpus demoRecs []).1 = ["A", "B", "C"] ∧
    (buildCorpus demoRecs []).2.map tokenize = demoDocs ∧
    (∀ t, (idfTable demoDocs t).isSome ↔
      t ∈ (["a", "b", "c", "fever", "pain", "cough"] : List String)) ∧
    (docFreq demoDocs "fever" = 2 ∧ docFreq demoDocs "pain" = 2 ∧
      docFreq demoDocs "cough" = 2 ∧ docFreq demoDocs "a" = 1 ∧
      docFreq demoDocs "b" = 1 ∧ docFreq demoDocs "c" = 1) ∧
    (idfTable demoDocs "fever" = some (1 + Real.log ((4 : ℝ) / 3)) ∧
      idfTable demoDocs "pain" = some (1 + Real.log ((4 : ℝ) / 3)) ∧
      idfTable demoDocs "cough" = some (1 + Real.log ((4 : ℝ) / 3)) ∧
      idfTable demoDocs "a" = some (1 + Real.log 2) ∧
      idfTable demoDocs "b" = some (1 + Real.log 2) ∧
      idfTable demoDocs "c" = some (1 + Real.log 2)) ∧
    (docWeights demoDocs ["a", "fever", "pain"] =
      [("a", (1 + Real.log 2) * (1 + Real.log 2)),
       ("fever", (1 + Real.log 2) * (1 + Real.log ((4 : ℝ) / 3))),
       ("pain", (1 + Real.log 2) * (1 + Real.log ((4 : ℝ) / 3)))] ∧
     docWeights demoDocs ["b", "fever", "cough"] =
      [("b", (1 + Real.log 2) * (1 + Real.log 2)),
       ("fever", (1 + Real.log 2) * (1 + Real.log ((4 : ℝ) / 3))),
       ("cough", (1 + Real.log 2) * (1 + Real.log ((4 : ℝ) / 3)))] ∧
     docWeights demoDocs ["c", "cough", "pain"] =
      [("c", (1 + Real.log 2) * (1 + Real.log 2)),
       ("cough", (1 + Real.log 2) * (1 + Real.log ((4 : ℝ) / 3))),
       ("pain", (1 + Real.log 2) * (1 + Real.log ((4 : ℝ) / 3)))]) ∧
    (Real.sqrt (((normalizeWeights (docWeights demoDocs
        ["a", "fever", "pain"])).map (fun p => p.2 * p.2)).sum) = 1 ∧
     Real.sqrt (((normalizeWeights (docWeights demoDocs
        ["b", "fever", "cough"])).map (fun p => p.2 * p.2)).sum) = 1 ∧
     Real.sqrt (((normalizeWeights (docWeights demoDocs
        ["c", "cough", "pain"])).map (fun p => p.2 * p.2)).sum) = 1) := by
  have hlen : demoDocs.length = 3 := by decide
  have hidf2 : ∀ t : String, docFreq demoDocs t = 2 →
      idfTable demoDocs t = some (1 + Real.log ((4 : ℝ) / 3)) := by
    intro t ht
    rw [idfTable_of_pos (by rw [ht]; norm_num), ht, hlen]
    norm_num
  have hidf1 : ∀ t : String, docFreq demoDocs t = 1 →
      idfTable demoDocs t = some (1 + Real.log 2) := by
    intro t ht
    rw [idfTable_of_pos (by rw [ht]; norm_num), ht, hlen]
    norm_num
  have hfever := hidf2 "fever" (by decide)
  have hpain := hidf2 "pain" (by decide)
  have hcough := hidf2 "cough" (by decide)
  have ha := hidf1 "a" (by decide)
  have hb := hidf1 "b" (by decide)
  have hc := hidf1 "c" (by decide)
  have hwA : docWeights demoDocs ["a", "fever", "pain"] =
      [("a", (1 + Real.log 2) * (1 + Real.log 2)),
       ("fever", (1 + Real.log 2) * (1 + Real.log ((4 : ℝ) / 3))),
       ("pain", (1 + Real.log 2) * (1 + Real.log ((4 : ℝ) / 3)))] := by
    rw [docWeights, show counterItems ["a", "fever", "pain"] =
      [("a", 1), ("fever", 1), ("pain", 1)] from by decide]
    simp only [List.filterMap_cons, List.filterMap_nil, ha, hfever, hpain]
    norm_num
  have hwB : docWeights demoDocs ["b", "fever", "cough"] =
      [("b", (1 + Real.log 2) * (1 + Real.log 2)),
       ("fever", (1 + Real.log 2) * (1 + Real.log ((4 : ℝ) / 3))),
       ("cough", (1 + Real.log 2) * (1 + Real.log ((4 : ℝ) / 3)))] := by
    rw [docWeights, show counterItems ["b", "fever", "cough"] =
      [("b", 1), ("fever", 1), ("cough", 1)] from by decide]
    simp only [List.filterMap_cons, List.filterMap_nil, hb, hfever, hcough]
    norm_num
  have hwC : docWeights demoDocs ["c", "cough", "pain"] =
      [("c", (1 + Real.log 2) * (1 + Real.log 2)),
       ("cough", (1 + Real.log 2) * (1 + Real.log ((4 : ℝ) / 3))),
       ("pain", (1 + Real.log 2) * (1 + Real.log ((4 : ℝ) / 3)))] := by
    rw [docWeights, show counterItems ["c", "cough", "pain"] =
      [("c", 1), ("cough", 1), ("pain", 1)] from by decide]
    simp only [List.filterMap_cons, List.filterMap_nil, hc, hcough, hpain]
    norm_num
  have hpos : ∀ (toks : List String) (p : String × ℝ),
      p ∈ docWeights demoDocs toks → 0 < p.2 := by
    rintro toks ⟨u, x⟩ hx
    exact docWeights_pos hx
  refine ⟨by decide, by decide, ?_, ⟨by decide, by decide, by decide,
    by decide, by decide, by decide⟩, ⟨hfever, hpain, hcough, ha, hb, hc⟩,
    ⟨hwA, hwB, hwC⟩, ?_, ?_, ?_⟩
  · intro t
    rw [idfTable_isSome, docFreq_pos_iff]
    constructor
    · rintro ⟨d, hd, ht⟩
      simp only [demoDocs, List.mem_cons, List.not_mem_nil, or_false] at hd
      rcases hd with rfl | rfl | rfl <;>
        · simp only [List.mem_cons, List.not_mem_nil, or_false] at ht
          rcases ht with rfl | rfl | rfl <;> decide
    · intro ht
      simp only [List.mem_cons, List.not_mem_nil, or_false] at ht
      rcases ht with rfl | rfl | rfl | rfl | rfl | rfl
      · exact ⟨["a", "fever", "pain"], by simp [demoDocs], by simp⟩
      · exact ⟨["b", "fever", "cough"], by simp [demoDocs], by simp⟩
      · exact ⟨["c", "cough", "pain"], by simp [demoDocs], by simp⟩
      · exact ⟨["a", "fever", "pain"], by simp [demoDocs], by simp⟩
      · exact ⟨["a", "fever", "pain"], by simp [demoDocs], by simp⟩
      · exact ⟨["b", "fever", "cough"], by simp [demoDocs], by simp⟩
  · exact normalizeWeights_norm_one (by rw [hwA]; simp) (hpos _)
  · exact normalizeWeights_norm_one (by rw [hwB]; simp) (hpos _)
  · exact normalizeWeights_norm_one (by rw [hwC]; simp) (hpos _)

end Tfidf
